import Mathlib

/-!
Verification of the flight-weather merge / feature-engineering / finalization
stage of the DSC288R capstone pipeline, shallowly embedded from
`src/data_processing/final_data.py` and `src/data_processing/process_flight_data.py`.

Conventions of the embedding:
* airport codes, airline codes and calendar dates are coded as natural numbers;
* pandas floating-point columns become `Option ℚ` (`none` is NaN/null);
* a pandas data frame becomes a `List` of row structures in frame order;
* `sort_values` on two columns becomes a stable insertion sort on the
  lexicographic key, matching pandas' stable lexsort;
* the seeded shuffle used by `sklearn.model_selection.train_test_split`
  (random_state=42) is passed in explicitly as the list of shuffled row
  indices; the same seed and the same row count give the same index list.
-/

namespace FinalData

/-- Weather measurement elements carried by the processed NOAA table, in the
order they appear in the merge query of `final_data.py`. -/
inductive WVar
  | prcp | snow | snwd | tmax | tmin
deriving DecidableEq, Repr

/-- Side of the join a weather column belongs to: the `Origin_`-prefixed or the
`Dest_`-prefixed copy. -/
inductive Side
  | origin | dest
deriving DecidableEq, Repr

/-- Rolling-window label used in `add_rolling_averages`: `weekly` is a window
of 7 and `monthly` a window of 30. -/
inductive Win
  | weekly | monthly
deriving DecidableEq, Repr

instance : Fintype WVar :=
  ⟨⟨[WVar.prcp, WVar.snow, WVar.snwd, WVar.tmax, WVar.tmin], by decide⟩,
    fun x => by cases x <;> decide⟩

instance : Fintype Side :=
  ⟨⟨[Side.origin, Side.dest], by decide⟩, fun x => by cases x <;> decide⟩

instance : Fintype Win :=
  ⟨⟨[Win.weekly, Win.monthly], by decide⟩, fun x => by cases x <;> decide⟩

/-- A nullable numeric cell, as in a pandas float column. -/
abbrev Val := Option ℚ

/-- The window length of each label, from `time_windows = {'weekly': 7, 'monthly': 30}`. -/
def winLen : Win → ℕ
  | Win.weekly => 7
  | Win.monthly => 30

/-- Identifier of one of the twenty rolling weather columns
`{weekly,monthly}_avg_{origin,dest}_{tmin,tmax,prcp,snow,snwd}`. -/
abbrev WCol := Win × Side × WVar

/-- A row of the merged flight/weather table produced by `merge_flight_weather`:
the flight columns used downstream plus the ten prefixed weather columns. -/
structure MergedRow where
  airline : ℕ
  origin : ℕ
  dest : ℕ
  flightDate : ℕ
  depDelayMinutes : Val
  depDel15 : ℚ
  wval : Side → WVar → Val
deriving Inhabited

instance : DecidableEq MergedRow := fun a b =>
  decidable_of_iff
    (a.airline = b.airline ∧ a.origin = b.origin ∧ a.dest = b.dest ∧
      a.flightDate = b.flightDate ∧ a.depDelayMinutes = b.depDelayMinutes ∧
      a.depDel15 = b.depDel15 ∧ a.wval = b.wval)
    (by cases a; cases b; simp)

/-- Output row of `add_rolling_averages`: the (filled) merged columns plus the
twenty rolling weather columns. -/
structure Stage1 where
  base : MergedRow
  wfeat : WCol → Val
deriving Inhabited

instance : DecidableEq Stage1 := fun a b =>
  decidable_of_iff (a.base = b.base ∧ a.wfeat = b.wfeat) (by cases a; cases b; simp)

/-- Output row of `add_generic_rolling_averages`: stage-1 columns plus the two
rolling delay columns `{weekly,monthly}_avg_origin_depdelayminutes`. -/
structure Stage2 where
  base : MergedRow
  wfeat : WCol → Val
  dfeat : Win → Val
deriving Inhabited

instance : DecidableEq Stage2 := fun a b =>
  decidable_of_iff (a.base = b.base ∧ a.wfeat = b.wfeat ∧ a.dfeat = b.dfeat)
    (by cases a; cases b; simp)

/-- Sort key of `df.sort_values(['Origin', 'FlightDate'])`. -/
def mergedKey (r : MergedRow) : ℕ × ℕ := (r.origin, r.flightDate)

/-- Lexicographic comparison of (Origin, FlightDate) keys. -/
def pairLe (p q : ℕ × ℕ) : Bool :=
  p.1 < q.1 || (p.1 = q.1 && p.2 ≤ q.2)

/-- Stable insertion of `a` into a list already sorted by `key`: `a` goes in
front of the first element it compares `≤` to, hence after every earlier
element with an equal key. -/
def sInsertBy (key : α → ℕ × ℕ) (a : α) : List α → List α
  | [] => [a]
  | b :: t => if pairLe (key a) (key b) then a :: b :: t else b :: sInsertBy key a t

/-- Stable sort by `key`, the embedding of pandas' stable multi-column
`sort_values`. -/
def sortBy (key : α → ℕ × ℕ) (l : List α) : List α :=
  l.foldr (sInsertBy key) []

/-- Forward fill of a nullable column with carried value `c`
(pandas `Series.ffill`). -/
def ffillAux (c : Val) : List Val → List Val
  | [] => []
  | none :: t => c :: ffillAux c t
  | some x :: t => some x :: ffillAux (some x) t

/-- pandas `ffill` on one column. -/
def ffill (l : List Val) : List Val := ffillAux none l

/-- pandas `bfill` on one column: forward fill of the reversed column. -/
def bfill (l : List Val) : List Val := (ffillAux none l.reverse).reverse

/-- The fill applied to every column at the end of both rolling helpers:
`df.bfill(inplace=True)` followed by `df.ffill(inplace=True)`. -/
def fillCol (l : List Val) : List Val := ffill (bfill l)

/-- The last `n` entries of a list. -/
def lastN (n : ℕ) (l : List α) : List α := l.drop (l.length - n)

/-- The values of column `val` at the rows of `rows.take (i+1)` that share row
`i`'s group key — the data visible to pandas' trailing rolling window at row
`i` after `groupby(key)`. -/
def groupPrefixVals (key : α → ℕ) (val : α → Val) [Inhabited α]
    (rows : List α) (i : ℕ) : List Val :=
  ((rows.take (i + 1)).filter (fun r => key r == key (rows.getD i default))).map val

/-- One entry of a pandas trailing rolling mean with `min_periods=1`: the mean
of the non-null values among the last at most `w` same-group values up to and
including row `i`, and null when all of them are null. -/
def rollEntry (w : ℕ) (key : α → ℕ) (val : α → Val) [Inhabited α]
    (rows : List α) (i : ℕ) : Val :=
  if ((lastN w (groupPrefixVals key val rows i)).filterMap id).isEmpty then none
  else some (((lastN w (groupPrefixVals key val rows i)).filterMap id).sum /
    (((lastN w (groupPrefixVals key val rows i)).filterMap id).length : ℚ))

/-- The embedding of
`df.groupby(key)[col].apply(lambda x: x.rolling(window=w, min_periods=1).mean())`. -/
def rollCol (w : ℕ) (key : α → ℕ) (val : α → Val) [Inhabited α]
    (rows : List α) : List Val :=
  (List.range rows.length).map (rollEntry w key val rows)

/-- Group key used for the side `s` weather columns: `Origin` for the
`Origin_`-prefixed ones, `Dest` for the `Dest_`-prefixed ones. -/
def sideKey : Side → MergedRow → ℕ
  | Side.origin => MergedRow.origin
  | Side.dest => MergedRow.dest

/-- The rolling weather column `c` of `add_rolling_averages`, computed over the
already-sorted frame `s` and then run through the frame-wide bfill/ffill. -/
def wfeatCol (s : List MergedRow) (c : WCol) : List Val :=
  fillCol (rollCol (winLen c.1) (sideKey c.2.1) (fun r => r.wval c.2.1 c.2.2) s)

/-- The frame-wide `bfill`/`ffill` restricted to the nullable merged columns
(the ten weather columns and `DepDelayMinutes`); the integer key columns are
unaffected by filling. -/
def fillBaseCols (rows : List MergedRow) : List MergedRow :=
  (List.range rows.length).map (fun i =>
    { rows.getD i default with
      depDelayMinutes := (fillCol (rows.map (·.depDelayMinutes))).getD i none,
      wval := fun s v => (fillCol (rows.map (fun r => r.wval s v))).getD i none })

/-- Body of `add_rolling_averages` after its initial `sort_values`. -/
def addRollingSorted (s : List MergedRow) : List Stage1 :=
  (List.range s.length).map (fun i =>
    { base := (fillBaseCols s).getD i default,
      wfeat := fun c => (wfeatCol s c).getD i none })

/-- Embedding of `add_rolling_averages`: sort by (Origin, FlightDate), attach
the twenty rolling weather means (grouped by Origin for the `Origin_` columns
and by Dest for the `Dest_` columns, each a trailing mean over at most the
last 7 or 30 rows of the group with `min_periods=1`), then backward- and
forward-fill every column of the frame. -/
def add_rolling_averages (df : List MergedRow) : List Stage1 :=
  addRollingSorted (sortBy mergedKey df)

/-- The frame-wide `bfill`/`ffill` over a stage-1 frame: every nullable merged
column and all twenty rolling weather columns. -/
def fillStage1Cols (rows : List Stage1) : List Stage1 :=
  (List.range rows.length).map (fun i =>
    { base := (fillBaseCols (rows.map (·.base))).getD i default,
      wfeat := fun c => (fillCol (rows.map (·.wfeat c))).getD i none })

/-- The rolling delay column of `add_generic_rolling_averages` for window `w`,
grouped by Origin over the already-sorted stage-1 frame, then filled. -/
def dfeatCol (s : List Stage1) (w : Win) : List Val :=
  fillCol (rollCol (winLen w) (fun r => r.base.origin)
    (fun r => r.base.depDelayMinutes) s)

/-- Body of `add_generic_rolling_averages` after its `sort_values`. -/
def addGenericSorted (s : List Stage1) : List Stage2 :=
  (List.range s.length).map (fun i =>
    { base := ((fillStage1Cols s).getD i default).base,
      wfeat := ((fillStage1Cols s).getD i default).wfeat,
      dfeat := fun w => (dfeatCol s w).getD i none })

/-- Embedding of `add_generic_rolling_averages` with its default arguments
(`columns=['DepDelayMinutes']`, `windows={'weekly': 7, 'monthly': 30}`):
re-sort by (Origin, FlightDate), attach the two rolling delay means per
Origin, then backward- and forward-fill every column of the frame. -/
def add_generic_rolling_averages (df : List Stage1) : List Stage2 :=
  addGenericSorted (sortBy (fun r => mergedKey r.base) df)

/-- The feature-engineering stage of `final_data.py`'s main block: the two
rolling-average passes applied to the concatenated merged table. -/
def enrich (df : List MergedRow) : List Stage2 :=
  add_generic_rolling_averages (add_rolling_averages df)

/-- A row of the processed per-year flight table, restricted to the columns the
merge and finalization read. -/
structure FlightRow where
  airline : ℕ
  origin : ℕ
  dest : ℕ
  flightDate : ℕ
  depDelayMinutes : Val
  depDel15 : ℚ
deriving DecidableEq, Inhabited

/-- A row of the processed per-year NOAA weather table: one station/date key
with the five measurement elements. -/
structure WeatherRow where
  station : ℕ
  date : ℕ
  vals : WVar → Val
deriving Inhabited

instance : DecidableEq WeatherRow := fun a b =>
  decidable_of_iff (a.station = b.station ∧ a.date = b.date ∧ a.vals = b.vals)
    (by cases a; cases b; simp)

/-- Whether weather row `w` matches flight `f` on the origin side of the join:
`f.Origin = w.STATION AND f.FlightDate = w.DATE`. -/
def matchO (f : FlightRow) (w : WeatherRow) : Bool :=
  w.station == f.origin && w.date == f.flightDate

/-- Whether weather row `w` matches flight `f` on the destination side:
`f.Dest = w.STATION AND f.FlightDate = w.DATE`. -/
def matchD (f : FlightRow) (w : WeatherRow) : Bool :=
  w.station == f.dest && w.date == f.flightDate

/-- Builds one merged row from a flight row and its optional origin-side and
destination-side weather matches: the flight columns plus the `Origin_`- and
`Dest_`-prefixed copies of the five weather elements (null where the side did
not match). -/
def mkMerged (f : FlightRow) (o d : Option WeatherRow) : MergedRow :=
  { airline := f.airline, origin := f.origin, dest := f.dest,
    flightDate := f.flightDate, depDelayMinutes := f.depDelayMinutes,
    depDel15 := f.depDel15,
    wval := fun s v =>
      match s with
      | Side.origin => o.bind (fun w => w.vals v)
      | Side.dest => d.bind (fun w => w.vals v) }

/-- The rows the SQL double LEFT JOIN of `merge_flight_weather` produces for a
single flight row, before the `WHERE` filter: every combination of an
origin-side match (or null, when none) with a destination-side match (or null,
when none). -/
def joinOne (weather : List WeatherRow) (f : FlightRow) : List (Option WeatherRow × Option WeatherRow) :=
  let oms := weather.filter (matchO f)
  let dms := weather.filter (matchD f)
  let olist := if oms.isEmpty then [none] else oms.map some
  let dlist := if dms.isEmpty then [none] else dms.map some
  olist.flatMap (fun o => dlist.map (fun d => (o, d)))

/-- Embedding of the query in `merge_flight_weather`: LEFT JOIN the weather
table on the origin key and on the destination key, then keep a row only when
`w_origin.STATION IS NOT NULL OR w_dest.STATION IS NOT NULL`. -/
def merge_flight_weather (flights : List FlightRow) (weather : List WeatherRow) : List MergedRow :=
  flights.flatMap (fun f =>
    (joinOne weather f).filterMap (fun od =>
      if od.1.isSome || od.2.isSome then some (mkMerged f od.1 od.2) else none))

/-- The categorical columns target-encoded by `train_test_split_encoder`:
`cat_cols = ["Airline", "Origin", "Dest"]`. -/
inductive CatCol
  | airline | origin | dest
deriving DecidableEq, Repr

instance : Fintype CatCol :=
  ⟨⟨[CatCol.airline, CatCol.origin, CatCol.dest], by decide⟩, fun x => by cases x <;> decide⟩

/-- The value of categorical column `c` on an enriched row. -/
def catVal (c : CatCol) (r : Stage2) : ℕ :=
  match c with
  | CatCol.airline => r.base.airline
  | CatCol.origin => r.base.origin
  | CatCol.dest => r.base.dest

/-- An output row of `train_test_split_encoder`: the enriched columns with the
three categorical columns replaced in place by their encoded rational values,
and the target column reattached. -/
structure EncodedRow where
  flightDate : ℕ
  depDelayMinutes : Val
  depDel15 : ℚ
  wval : Side → WVar → Val
  wfeat : WCol → Val
  dfeat : Win → Val
  enc : CatCol → ℚ
deriving Inhabited

instance : DecidableEq EncodedRow := fun a b =>
  decidable_of_iff
    (a.flightDate = b.flightDate ∧ a.depDelayMinutes = b.depDelayMinutes ∧
      a.depDel15 = b.depDel15 ∧ a.wval = b.wval ∧ a.wfeat = b.wfeat ∧
      a.dfeat = b.dfeat ∧ a.enc = b.enc)
    (by cases a; cases b; simp)

/-- The global mean of the training labels, `TargetEncoder.target_mean_`. -/
def globalMean (train : List Stage2) : ℚ :=
  if train.isEmpty then 0 else (train.map (·.base.depDel15)).sum / (train.length : ℚ)

/-- Modelled from the documented contract of `sklearn.preprocessing.TargetEncoder`
(the library call in `train_test_split_encoder`, external to this repository):
the encoding of category value `k` in column `c` is fit on the training rows
alone; a category never seen in training encodes to the global training target
mean, and a seen category to its mean training label (sklearn's empirical-Bayes
shrinkage of seen categories toward the global mean is abstracted away — no
claim here depends on the exact value for seen categories). -/
def encodeCat (train : List Stage2) (c : CatCol) (k : ℕ) : ℚ :=
  let grp := train.filter (fun r => catVal c r == k)
  if grp.isEmpty then globalMean train
  else (grp.map (·.base.depDel15)).sum / (grp.length : ℚ)

/-- Applies the encoder fitted on `train` to one enriched row, replacing the
three categorical columns by their encoded values. -/
def encodeRowWith (train : List Stage2) (r : Stage2) : EncodedRow :=
  { flightDate := r.base.flightDate,
    depDelayMinutes := r.base.depDelayMinutes,
    depDel15 := r.base.depDel15,
    wval := r.base.wval,
    wfeat := r.wfeat,
    dfeat := r.dfeat,
    enc := fun c => encodeCat train c (catVal c r) }

/-- Number of test rows taken by `train_test_split(..., test_size=0.2)`:
sklearn uses `ceil(0.2 * n)`. -/
def nTest (n : ℕ) : ℕ := (n + 4) / 5

/-- The test rows selected by the split: sklearn's `ShuffleSplit` takes the
first `nTest n` positions of the seeded shuffle `idx` of `range n`. -/
def testSel (idx : List ℕ) (df : List Stage2) : List Stage2 :=
  (idx.take (nTest df.length)).map (fun i => df.getD i default)

/-- The training rows selected by the split: the remaining positions of the
shuffle, in shuffle order. -/
def trainSel (idx : List ℕ) (df : List Stage2) : List Stage2 :=
  (idx.drop (nTest df.length)).map (fun i => df.getD i default)

/-- Embedding of `train_test_split_encoder`: split the frame by the seeded
shuffle `idx` (`train_test_split(X, y, test_size=0.2, random_state=42)`, no
stratification), fit the target encoder on the training partition, apply it to
both partitions, and return `(train, test)` with the label column retained. -/
def train_test_split_encoder (idx : List ℕ) (df : List Stage2) : List EncodedRow × List EncodedRow :=
  let train := trainSel idx df
  let test := testSel idx df
  (train.map (encodeRowWith train), test.map (encodeRowWith train))

/-- The whole merge-enrich-finalize stage of `final_data.py`'s main block on
already-merged per-year blocks: concatenate the per-year merged tables in the
order the worker threads completed (`blocks` lists them in completion order),
apply the two rolling passes, then split and encode. `idx` is the seeded
shuffle of the split, a function of the fixed seed and the row count only. -/
def finalPipeline (idx : List ℕ) (blocks : List (List MergedRow)) : List EncodedRow × List EncodedRow :=
  train_test_split_encoder idx (enrich blocks.flatten)

/-- Embedding of `undersample_delays` in `process_flight_data.py`: keep every
flight with `DepDel15 == 1`, and append `len(delayed)` rows drawn without
replacement from the `DepDel15 == 0` rows; `sel` lists the row positions
(within the on-time subframe) chosen by `sklearn.utils.resample(...,
replace=False, random_state=42)`. -/
def undersample_delays (sel : List ℕ) (df : List FlightRow) : List FlightRow :=
  let delayed := df.filter (fun r => r.depDel15 == 1)
  let onTime := df.filter (fun r => r.depDel15 == 0)
  delayed ++ sel.map (fun i => onTime.getD i default)

/-- The inner `military_to_minutes` of `convert_military_time`: split a raw
military time into hours and minutes, return null when the minutes part is
`≥ 60` or the hours part is `≥ 24`, and `hours * 60 + minutes` otherwise. -/
def military_to_minutes (t : ℕ) : Option ℕ :=
  let hh := t / 100
  let mm := t % 100
  if 60 ≤ mm ∨ 24 ≤ hh then none else some (hh * 60 + mm)

/-- Embedding of `convert_military_time` on one column
(`df[col].apply(military_to_minutes)` for `col` in `CRSDepTime, CRSArrTime`). -/
def convert_military_time (col : List ℕ) : List (Option ℕ) :=
  col.map military_to_minutes

/-- The per-row body of `add_weekend_indicator`:
`1 if x in [1, 7] else 0` applied to the `DayOfWeek` column. -/
def weekend_indicator (d : ℕ) : ℕ :=
  if d = 1 ∨ d = 7 then 1 else 0

/-- The per-row body of `add_working_indicator`:
`np.where((Weekend_Indicator == 1) | (Holiday_Indicator == 1), 0, 1)`. -/
def working_day (w h : ℕ) : ℕ :=
  if w = 1 ∨ h = 1 then 0 else 1

/-- Days of the week, used to talk about what the `DayOfWeek` codes denote. -/
inductive Weekday
  | monday | tuesday | wednesday | thursday | friday | saturday | sunday
deriving DecidableEq, Repr

/-- The `DayOfWeek` coding of the BTS on-time flight dataset this pipeline
ingests, as documented by its provider: 1 = Monday through 7 = Sunday. -/
def btsCode : Weekday → ℕ
  | Weekday.monday => 1
  | Weekday.tuesday => 2
  | Weekday.wednesday => 3
  | Weekday.thursday => 4
  | Weekday.friday => 5
  | Weekday.saturday => 6
  | Weekday.sunday => 7

/-! ## General list lemmas used by several proofs -/

theorem getD_map_lt {l : List α} {j : ℕ} (f : α → β) (d : α) (e : β)
    (h : j < l.length) : (l.map f).getD j e = f (l.getD j d) := by
  rw [List.getD_eq_getElem _ _ (by simpa using h), List.getD_eq_getElem _ _ h,
    List.getElem_map]

theorem map_getD_range (l : List α) (d : α) :
    (List.range l.length).map (fun i => l.getD i d) = l := by
  induction l with
  | nil => simp
  | cons a t ih =>
    rw [List.length_cons, List.range_succ_eq_map, List.map_cons, List.map_map]
    simp only [List.getD_cons_zero, List.getD_cons_succ, Function.comp_def]
    rw [ih]

theorem rebuild_map_range {l : List α} {F : ℕ → α} (d : α)
    (h : ∀ i, i < l.length → F i = l.getD i d) :
    (List.range l.length).map F = l := by
  have h1 : (List.range l.length).map F =
      (List.range l.length).map (fun i => l.getD i d) := by
    apply List.map_congr_left
    intro i hi
    exact h i (List.mem_range.mp hi)
  rw [h1, map_getD_range]

/-! ## C9: military time conversion -/

/-- C9: After the raw-value validation step, every converted scheduled
time-of-day value is either null or an integer in [0, 1439]: an input whose
minutes part is ≥ 60 or whose hours part is ≥ 24 converts to null (never a
wrapped value), and every other input converts to hours * 60 + minutes, which
is at most 1439. -/
theorem convert_military_time_valid_range : ∀ t : ℕ,
    (military_to_minutes t = none ∧ (60 ≤ t % 100 ∨ 24 ≤ t / 100)) ∨
    (military_to_minutes t = some (t / 100 * 60 + t % 100) ∧
      t / 100 * 60 + t % 100 ≤ 1439 ∧ t % 100 < 60 ∧ t / 100 < 24) := by
  intro t
  by_cases h : 60 ≤ t % 100 ∨ 24 ≤ t / 100
  · left
    exact ⟨by simp [military_to_minutes, h], h⟩
  · right
    refine ⟨by simp [military_to_minutes, h], ?_, ?_, ?_⟩ <;> omega

/-! ## C10: weekend and working-day indicators -/

/-- C10 counterexample: under the BTS `DayOfWeek` coding of the ingested
dataset (1 = Monday … 7 = Sunday), the code assigns Saturday (code 6) a
`Weekend_Indicator` of 0 and Monday (code 1) a `Weekend_Indicator` of 1, so
the indicator is not 1 exactly on Saturday and Sunday as claimed. -/
theorem weekend_indicator_bts_counterexample :
    weekend_indicator (btsCode Weekday.saturday) = 0 ∧
    weekend_indicator (btsCode Weekday.monday) = 1 := by
  decide

/-- C10 amended: `Weekend_Indicator` is 1 exactly when the `DayOfWeek` code is
1 or 7 (Monday or Sunday under the dataset's BTS coding; Saturday and Sunday
only under a Sunday-start coding), and `Working_Day` is 1 exactly when the
row is neither flagged as weekend by that rule nor flagged as holiday. -/
theorem weekend_working_day_amended : ∀ d h : ℕ,
    (weekend_indicator d = 1 ↔ (d = 1 ∨ d = 7)) ∧
    (working_day (weekend_indicator d) h = 1 ↔ (¬(d = 1 ∨ d = 7) ∧ h ≠ 1)) := by
  intro d h
  by_cases hd : d = 1 ∨ d = 7 <;> by_cases hh : h = 1 <;>
    simp [weekend_indicator, working_day, hd, hh]

/-! ## C8: undersampling of on-time flights -/

/-- C8: `undersample_delays` keeps every row with `DepDel15 = 1` (they form the
front of the output), appends exactly `len(delayed)` rows drawn without
replacement (`sel` has no duplicate positions) from the `DepDel15 = 0` rows,
and the two classes end up with equal counts. -/
theorem undersample_delays_balances (df : List FlightRow) (sel : List ℕ)
    (hlen : sel.length = (df.filter (fun r => r.depDel15 == 1)).length)
    (hmem : ∀ i ∈ sel, i < (df.filter (fun r => r.depDel15 == 0)).length) :
    (undersample_delays sel df).take (df.filter (fun r => r.depDel15 == 1)).length =
      df.filter (fun r => r.depDel15 == 1) ∧
    (undersample_delays sel df).countP (fun r => r.depDel15 == 1) =
      (df.filter (fun r => r.depDel15 == 1)).length ∧
    (undersample_delays sel df).countP (fun r => r.depDel15 == 0) =
      (df.filter (fun r => r.depDel15 == 1)).length ∧
    ∀ r ∈ (undersample_delays sel df).drop (df.filter (fun r => r.depDel15 == 1)).length,
      r ∈ df.filter (fun r => r.depDel15 == 0) := by
  classical
  set delayed := df.filter (fun r => r.depDel15 == 1) with hdel
  set onTime := df.filter (fun r => r.depDel15 == 0) with hon
  have hsampmem : ∀ r ∈ sel.map (fun i => onTime.getD i default), r ∈ onTime := by
    intro r hr
    rcases List.mem_map.mp hr with ⟨i, hi, rfl⟩
    have hlt := hmem i hi
    rw [List.getD_eq_getElem _ _ hlt]
    exact List.getElem_mem hlt
  have hout : undersample_delays sel df = delayed ++ sel.map (fun i => onTime.getD i default) := rfl
  refine ⟨?_, ?_, ?_, ?_⟩
  · rw [hout, List.take_left]
  · rw [hout, List.countP_append]
    have h1 : delayed.countP (fun r => r.depDel15 == 1) = delayed.length := by
      apply List.countP_eq_length.mpr
      intro r hr
      exact (List.mem_filter.mp hr).2
    have h2 : (sel.map (fun i => onTime.getD i default)).countP (fun r => r.depDel15 == 1) = 0 := by
      apply List.countP_eq_zero.mpr
      intro r hr
      have h0 : r.depDel15 == 0 := (List.mem_filter.mp (hsampmem r hr)).2
      have h0' : r.depDel15 = 0 := by exact_mod_cast eq_of_beq h0
      simp [h0']
    omega
  · rw [hout, List.countP_append]
    have h1 : delayed.countP (fun r => r.depDel15 == 0) = 0 := by
      apply List.countP_eq_zero.mpr
      intro r hr
      have h0 : r.depDel15 == 1 := (List.mem_filter.mp hr).2
      have h0' : r.depDel15 = 1 := by exact_mod_cast eq_of_beq h0
      simp [h0']
    have h2 : (sel.map (fun i => onTime.getD i default)).countP (fun r => r.depDel15 == 0) =
        sel.length := by
      rw [← List.length_map sel (fun i => onTime.getD i default)]
      apply List.countP_eq_length.mpr
      intro r hr
      exact (List.mem_filter.mp (hsampmem r hr)).2
    omega
  · intro r hr
    rw [hout, List.drop_left] at hr
    exact hsampmem r hr

/-- A concrete six-flight table with two delayed rows, for the C8 witness. -/
def c8df : List FlightRow :=
  [{ airline := 0, origin := 1, dest := 2, flightDate := 10, depDelayMinutes := some 20, depDel15 := 1 },
   { airline := 0, origin := 1, dest := 2, flightDate := 10, depDelayMinutes := some 0, depDel15 := 0 },
   { airline := 1, origin := 2, dest := 3, flightDate := 11, depDelayMinutes := some 5, depDel15 := 0 },
   { airline := 1, origin := 2, dest := 3, flightDate := 11, depDelayMinutes := some 30, depDel15 := 1 },
   { airline := 0, origin := 3, dest := 1, flightDate := 12, depDelayMinutes := some 2, depDel15 := 0 },
   { airline := 1, origin := 3, dest := 1, flightDate := 12, depDelayMinutes := some 7, depDel15 := 0 }]

/-- C8 witness: the balancing theorem applied to a concrete six-flight table
with two delayed rows and a concrete no-replacement sample. -/
theorem undersample_delays_balances_witness :
    (undersample_delays [2, 0] c8df).take ((c8df.filter (fun r => r.depDel15 == 1)).length) =
      c8df.filter (fun r => r.depDel15 == 1) ∧
    (undersample_delays [2, 0] c8df).countP (fun r => r.depDel15 == 1) =
      (c8df.filter (fun r => r.depDel15 == 1)).length ∧
    (undersample_delays [2, 0] c8df).countP (fun r => r.depDel15 == 0) =
      (c8df.filter (fun r => r.depDel15 == 1)).length ∧
    ∀ r ∈ (undersample_delays [2, 0] c8df).drop ((c8df.filter (fun r => r.depDel15 == 1)).length),
      r ∈ c8df.filter (fun r => r.depDel15 == 0) :=
  undersample_delays_balances c8df [2, 0] (by decide) (by decide)

/-! ## C5: target-encoder fallback for unseen categories -/

/-- C5: the target encoder is fit on the training partition alone and applied
to both partitions; a category value `k` of column `c` that never occurs in
the training rows encodes to the global training label mean, and every test
row carrying such a value receives exactly that fallback. -/
theorem target_encoder_unseen_fallback (idx : List ℕ) (df : List Stage2)
    (c : CatCol) (k : ℕ)
    (hunseen : ∀ r ∈ trainSel idx df, catVal c r ≠ k) :
    encodeCat (trainSel idx df) c k = globalMean (trainSel idx df) ∧
    ∀ j, j < (testSel idx df).length →
      catVal c ((testSel idx df).getD j default) = k →
      ((train_test_split_encoder idx df).2.getD j default).enc c =
        globalMean (trainSel idx df) := by
  have hfilter : (trainSel idx df).filter (fun r => catVal c r == k) = [] := by
    rw [List.filter_eq_nil_iff]
    intro r hr
    simpa using hunseen r hr
  have henc : encodeCat (trainSel idx df) c k = globalMean (trainSel idx df) := by
    rw [encodeCat, hfilter]
    simp
  refine ⟨henc, ?_⟩
  intro j hj hk
  have h2 : (train_test_split_encoder idx df).2 =
      (testSel idx df).map (encodeRowWith (trainSel idx df)) := rfl
  rw [h2, getD_map_lt (encodeRowWith (trainSel idx df)) default default hj]
  show encodeCat (trainSel idx df) c (catVal c ((testSel idx df).getD j default)) =
    globalMean (trainSel idx df)
  rw [hk, henc]

/-- A null-featured enriched row, used to build concrete finalizer inputs. -/
def mkStage2 (a o d dt : ℕ) (lbl : ℚ) : Stage2 :=
  { base := { airline := a
              origin := o
              dest := d
              flightDate := dt
              depDelayMinutes := some 10
              depDel15 := lbl
              wval := fun _ _ => none },
    wfeat := fun _ => none, dfeat := fun _ => none }

/-- A concrete five-row enriched table whose first row (the single test row
under the shuffle `[0, 1, 2, 3, 4]`) carries the Origin code 99, which the
four training rows never carry. -/
def c5df : List Stage2 :=
  [mkStage2 0 99 2 10 0, mkStage2 0 7 2 10 1, mkStage2 1 7 3 11 0,
   mkStage2 1 7 3 11 1, mkStage2 0 7 1 12 0]

/-- C5 witness: the fallback theorem applied to the concrete table, the
identity shuffle of its five rows, and the test-only Origin code 99. -/
theorem target_encoder_unseen_fallback_witness :
    encodeCat (trainSel [0, 1, 2, 3, 4] c5df) CatCol.origin 99 =
      globalMean (trainSel [0, 1, 2, 3, 4] c5df) ∧
    ∀ j, j < (testSel [0, 1, 2, 3, 4] c5df).length →
      catVal CatCol.origin ((testSel [0, 1, 2, 3, 4] c5df).getD j default) = 99 →
      ((train_test_split_encoder [0, 1, 2, 3, 4] c5df).2.getD j default).enc CatCol.origin =
        globalMean (trainSel [0, 1, 2, 3, 4] c5df) :=
  target_encoder_unseen_fallback [0, 1, 2, 3, 4] c5df CatCol.origin 99
    (by decide)

/-! ## C7: the merge keeps a flight exactly once iff a side matched -/

theorem filter_match_subsingleton (weather : List WeatherRow)
    (huniq : weather.Pairwise (fun w w' => (w.station, w.date) ≠ (w'.station, w'.date)))
    (st dt : ℕ) (p : WeatherRow → Bool)
    (hp : ∀ w, p w = true ↔ (w.station = st ∧ w.date = dt)) :
    weather.filter p = [] ∨ ∃ w, weather.filter p = [w] := by
  cases hf : weather.filter p with
  | nil => exact Or.inl rfl
  | cons w rest =>
    cases hr : rest with
    | nil => subst hr; exact Or.inr ⟨w, rfl⟩
    | cons w' r' =>
      exfalso
      have hpw := huniq.filter p
      rw [hf, hr] at hpw
      have hne : (w.station, w.date) ≠ (w'.station, w'.date) :=
        (List.pairwise_cons.mp hpw).1 w' (by simp)
      have hw : p w = true := by
        have : w ∈ weather.filter p := by rw [hf]; exact List.mem_cons_self _ _
        exact (List.mem_filter.mp this).2
      have hw' : p w' = true := by
        have : w' ∈ weather.filter p := by rw [hf, hr]; simp
        exact (List.mem_filter.mp this).2
      have e1 := (hp w).mp hw
      have e2 := (hp w').mp hw'
      exact hne (by rw [e1.1, e1.2, e2.1, e2.2])

theorem matchO_iff (f : FlightRow) (w : WeatherRow) :
    matchO f w = true ↔ (w.station = f.origin ∧ w.date = f.flightDate) := by
  simp [matchO]

theorem matchD_iff (f : FlightRow) (w : WeatherRow) :
    matchD f w = true ↔ (w.station = f.dest ∧ w.date = f.flightDate) := by
  simp [matchD]

theorem any_eq_filter_ne_nil (l : List α) (p : α → Bool) :
    l.any p = !(l.filter p).isEmpty := by
  induction l with
  | nil => rfl
  | cons a t ih =>
    by_cases h : p a <;> simp [List.filter_cons, h, ih]

theorem joinOne_filterMap_eq (weather : List WeatherRow) (f : FlightRow)
    (huniq : weather.Pairwise (fun w w' => (w.station, w.date) ≠ (w'.station, w'.date))) :
    (joinOne weather f).filterMap (fun od =>
        if od.1.isSome || od.2.isSome then some (mkMerged f od.1 od.2) else none) =
      (if (weather.any (matchO f) || weather.any (matchD f)) = true
        then [mkMerged f (weather.find? (matchO f)) (weather.find? (matchD f))]
        else []) := by
  have hO := filter_match_subsingleton weather huniq f.origin f.flightDate
    (matchO f) (matchO_iff f)
  have hD := filter_match_subsingleton weather huniq f.dest f.flightDate
    (matchD f) (matchD_iff f)
  have hfindO : weather.find? (matchO f) = (weather.filter (matchO f)).head? :=
    (List.filter_head? _ _).symm
  have hfindD : weather.find? (matchD f) = (weather.filter (matchD f)).head? :=
    (List.filter_head? _ _).symm
  have hanyO := any_eq_filter_ne_nil weather (matchO f)
  have hanyD := any_eq_filter_ne_nil weather (matchD f)
  rcases hO with hO | ⟨wo, hO⟩ <;> rcases hD with hD | ⟨wd, hD⟩ <;>
    simp [joinOne, hO, hD, hfindO, hfindD, hanyO, hanyD]

/-- C7: under the invariant that the weather table has one row per
(station, date), the merged output consists of exactly one row per flight that
matched the weather table on the origin side or the destination side (carrying
the matched origin-side and destination-side weather readings), and no row at
all for a flight matching neither side. -/
theorem merge_keeps_matched_exactly_once (flights : List FlightRow)
    (weather : List WeatherRow)
    (huniq : weather.Pairwise (fun w w' => (w.station, w.date) ≠ (w'.station, w'.date))) :
    merge_flight_weather flights weather =
      flights.flatMap (fun f =>
        if (weather.any (matchO f) || weather.any (matchD f)) = true
          then [mkMerged f (weather.find? (matchO f)) (weather.find? (matchD f))]
          else []) := by
  unfold merge_flight_weather
  have h : (fun f => (joinOne weather f).filterMap (fun od =>
      if od.1.isSome || od.2.isSome then some (mkMerged f od.1 od.2) else none)) =
      (fun f => if (weather.any (matchO f) || weather.any (matchD f)) = true
        then [mkMerged f (weather.find? (matchO f)) (weather.find? (matchD f))]
        else []) :=
    funext (fun f => joinOne_filterMap_eq weather f huniq)
  rw [h]

/-- Concrete flights for the C7 witness: one flight matching on the origin
side only, one matching on both sides, one matching neither. -/
def c7flights : List FlightRow :=
  [{ airline := 0, origin := 1, dest := 5, flightDate := 10, depDelayMinutes := some 3, depDel15 := 0 },
   { airline := 1, origin := 1, dest := 2, flightDate := 10, depDelayMinutes := some 30, depDel15 := 1 },
   { airline := 0, origin := 8, dest := 9, flightDate := 11, depDelayMinutes := some 0, depDel15 := 0 }]

/-- Concrete weather table for the C7 witness, one row per (station, date). -/
def c7weather : List WeatherRow :=
  [{ station := 1, date := 10, vals := fun _ => some 4 },
   { station := 2, date := 10, vals := fun _ => some 7 }]

/-- C7 witness: the merge characterization applied to the concrete tables. -/
theorem merge_keeps_matched_exactly_once_witness :
    merge_flight_weather c7flights c7weather =
      c7flights.flatMap (fun f =>
        if (c7weather.any (matchO f) || c7weather.any (matchD f)) = true
          then [mkMerged f (c7weather.find? (matchO f)) (c7weather.find? (matchD f))]
          else []) :=
  merge_keeps_matched_exactly_once c7flights c7weather (by decide)

/-! ## C1 counterexample: the rolling features use the row's own day -/

/-- Two flights from origin 1 on days 10 and 11 with `Origin_TMIN` readings 0
and 2. -/
def c1dfA : List MergedRow :=
  [{ airline := 0
     origin := 1
     dest := 2
     flightDate := 10
     depDelayMinutes := some 5
     depDel15 := 0
     wval := fun _ _ => some 0 },
   { airline := 0
     origin := 1
     dest := 2
     flightDate := 11
     depDelayMinutes := some 5
     depDel15 := 0
     wval := fun _ _ => some 2 }]

/-- The same table with day 11's own raw readings mutated from 2 to 100; every
row dated before day 11 is untouched. -/
def c1dfB : List MergedRow :=
  [{ airline := 0
     origin := 1
     dest := 2
     flightDate := 10
     depDelayMinutes := some 5
     depDel15 := 0
     wval := fun _ _ => some 0 },
   { airline := 0
     origin := 1
     dest := 2
     flightDate := 11
     depDelayMinutes := some 5
     depDel15 := 0
     wval := fun _ _ => some 100 }]

/-- C1 counterexample: `c1dfA` and `c1dfB` agree on every row dated strictly
before day 11 and differ only in day 11's own raw `Origin_TMIN` reading, yet
the weekly origin rolling feature attached to the day-11 row changes from 1
(the mean of 0 and 2) to 50 (the mean of 0 and 100). The feature is a trailing
mean over the last at most 7 rows of the Origin group including the row's own
day — there is no per-day aggregation and no one-day shift, and a feature for
day D computed only from days [D-7, D-1] would have been 0 in both tables. -/
theorem rolling_feature_uses_own_day_counterexample :
    ((enrich c1dfA).getD 1 default).wfeat (Win.weekly, Side.origin, WVar.tmin) = some 1 ∧
    ((enrich c1dfB).getD 1 default).wfeat (Win.weekly, Side.origin, WVar.tmin) = some 50 := by
  with_unfolding_all decide

/-! ## C2 counterexample: no cumulative same-day sequence count exists -/

/-- A single merged row; two copies of it share (Origin, FlightDate). -/
def c2row : MergedRow :=
  { airline := 0
    origin := 1
    dest := 2
    flightDate := 10
    depDelayMinutes := some 5
    depDel15 := 0
    wval := fun _ _ => some 3 }

/-- C2 counterexample: enriching a table of two identical rows sharing
(Origin, FlightDate) yields two completely identical output rows. A zero-based
same-day sequence count would assign 0 to the first of the pair and 1 to the
second in scheduled order, so some column would have to distinguish the two
rows; no column of the enriched table does, hence the enriched table carries
no such count. -/
theorem enrich_identical_rows_counterexample :
    (enrich [c2row, c2row]).getD 0 default = (enrich [c2row, c2row]).getD 1 default ∧
    (enrich [c2row, c2row]).length = 2 := by
  with_unfolding_all decide

/-! ## C3: no standardization is performed -/

/-- The empirical mean of a numeric column. -/
def colMean (l : List ℚ) : ℚ := if l.isEmpty then 0 else l.sum / (l.length : ℚ)

/-- A five-row enriched table whose `DepDelayMinutes` column is constantly 10
(`mkStage2` fixes `depDelayMinutes := some 10`). -/
def c3df : List Stage2 :=
  [mkStage2 0 1 2 10 1, mkStage2 0 2 3 10 0, mkStage2 1 3 1 11 1,
   mkStage2 1 1 3 11 0, mkStage2 0 2 1 12 1]

/-- C3 counterexample: for every possible shuffle of the five rows — in
particular for the one the fixed seed produces — the training partition
returned by `train_test_split_encoder` still carries the raw constant
`DepDelayMinutes` column, with empirical mean 10. Had the column been
standardized with training-partition statistics, a constant column would have
become constantly 0 with mean 0; no standardization step exists. -/
theorem finalize_no_standardization_counterexample :
    ((List.range 5).permutations.all (fun idx =>
      ((train_test_split_encoder idx c3df).1.map (fun r => r.depDelayMinutes) ==
          List.replicate 4 (some (10 : ℚ))) &&
        (colMean ((train_test_split_encoder idx c3df).1.filterMap
            (fun r => r.depDelayMinutes)) == 10))) = true := by
  with_unfolding_all decide

theorem map_encodeRow_proj (train : List Stage2) (l : List Stage2) :
    (l.map (encodeRowWith train)).map
        (fun r => (r.flightDate, r.depDelayMinutes, r.depDel15, r.wval, r.wfeat, r.dfeat)) =
      l.map (fun r => (r.base.flightDate, r.base.depDelayMinutes, r.base.depDel15,
        r.base.wval, r.wfeat, r.dfeat)) := by
  rw [List.map_map]
  rfl

/-- C3 corrected: the finalizer standardizes nothing — every column other than
the three target-encoded categorical ones passes through the split and
encoding bit-for-bit unchanged, in both partitions. -/
theorem finalize_passes_numeric_columns_through (idx : List ℕ) (df : List Stage2) :
    (train_test_split_encoder idx df).1.map
        (fun r => (r.flightDate, r.depDelayMinutes, r.depDel15, r.wval, r.wfeat, r.dfeat)) =
      (trainSel idx df).map
        (fun r => (r.base.flightDate, r.base.depDelayMinutes, r.base.depDel15,
          r.base.wval, r.wfeat, r.dfeat)) ∧
    (train_test_split_encoder idx df).2.map
        (fun r => (r.flightDate, r.depDelayMinutes, r.depDel15, r.wval, r.wfeat, r.dfeat)) =
      (testSel idx df).map
        (fun r => (r.base.flightDate, r.base.depDelayMinutes, r.base.depDel15,
          r.base.wval, r.wfeat, r.dfeat)) := by
  exact ⟨map_encodeRow_proj (trainSel idx df) (trainSel idx df),
    map_encodeRow_proj (trainSel idx df) (testSel idx df)⟩

/-! ## C4: the split is not stratified -/

/-- The share of label-1 rows in an encoded partition. -/
def classFrac (l : List EncodedRow) : ℚ :=
  if l.isEmpty then 0 else ((l.countP (fun r => r.depDel15 == 1)) : ℚ) / (l.length : ℚ)

/-- A five-row enriched table with a single positive label: overall positive
share 1/5, while any one-row test partition has share 0 or 1. -/
def c4df : List Stage2 :=
  [mkStage2 0 1 2 10 1, mkStage2 0 2 3 10 0, mkStage2 1 3 1 11 0,
   mkStage2 1 1 3 11 0, mkStage2 0 2 1 12 0]

/-- C4 counterexample: on the five-row single-positive table, for every
possible shuffle of the rows — in particular the fixed-seed one — the test
partition's positive share differs from the overall share 1/5 by at least 1/5
(far outside any reasonable tolerance, here 1/10), so the split does not
preserve the label's class proportions: it is a plain shuffle split with no
`stratify` argument. -/
theorem split_not_stratified_counterexample :
    ((List.range 5).permutations.all (fun idx =>
      !(decide (|classFrac (train_test_split_encoder idx c4df).2 - 1/5| ≤ 1/10)))) = true := by
  with_unfolding_all decide

/-- C4 corrected: the split is an unstratified shuffle split with fixed test
fraction 0.2: for every shuffle of the row positions, the selected test and
training rows together are a permutation of the input (so the partitions are
exhaustive and, for duplicate-free inputs, disjoint), and the test partition
has exactly `ceil(0.2 * n)` rows. -/
theorem split_partitions_with_fixed_fraction (idx : List ℕ) (df : List Stage2)
    (hperm : idx.Perm (List.range df.length)) :
    (testSel idx df ++ trainSel idx df).Perm df ∧
    (testSel idx df).length = nTest df.length ∧
    (train_test_split_encoder idx df).2.length = nTest df.length ∧
    (train_test_split_encoder idx df).1.length = df.length - nTest df.length ∧
    (df.Nodup → (testSel idx df).Disjoint (trainSel idx df)) := by
  have hlen : idx.length = df.length := by
    have h := hperm.length_eq
    rwa [List.length_range] at h
  have htle : nTest df.length ≤ df.length := by
    unfold nTest
    omega
  have happ : testSel idx df ++ trainSel idx df =
      idx.map (fun i => df.getD i default) := by
    rw [testSel, trainSel, ← List.map_append, List.take_append_drop]
  have hpermsel : (testSel idx df ++ trainSel idx df).Perm df := by
    rw [happ]
    have h1 : (idx.map (fun i => df.getD i default)).Perm
        ((List.range df.length).map (fun i => df.getD i default)) :=
      hperm.map _
    rwa [map_getD_range df default] at h1
  refine ⟨hpermsel, ?_, ?_, ?_, ?_⟩
  · rw [testSel, List.length_map, List.length_take, hlen]
    omega
  · rw [show (train_test_split_encoder idx df).2 =
        (testSel idx df).map (encodeRowWith (trainSel idx df)) from rfl,
      List.length_map, testSel, List.length_map, List.length_take, hlen]
    omega
  · rw [show (train_test_split_encoder idx df).1 =
        (trainSel idx df).map (encodeRowWith (trainSel idx df)) from rfl,
      List.length_map, trainSel, List.length_map, List.length_drop, hlen]
  · intro hnodup
    have hnd : (testSel idx df ++ trainSel idx df).Nodup :=
      (hpermsel.nodup_iff).mpr hnodup
    exact (List.nodup_append.mp hnd).2.2

/-- C4 witness: the partition theorem applied to the concrete five-row table
and a concrete shuffle of its positions. -/
theorem split_partitions_with_fixed_fraction_witness :
    (testSel [3, 0, 4, 1, 2] c4df ++ trainSel [3, 0, 4, 1, 2] c4df).Perm c4df ∧
    (testSel [3, 0, 4, 1, 2] c4df).length = nTest c4df.length ∧
    (train_test_split_encoder [3, 0, 4, 1, 2] c4df).2.length = nTest c4df.length ∧
    (train_test_split_encoder [3, 0, 4, 1, 2] c4df).1.length =
      c4df.length - nTest c4df.length ∧
    (c4df.Nodup → (testSel [3, 0, 4, 1, 2] c4df).Disjoint (trainSel [3, 0, 4, 1, 2] c4df)) :=
  split_partitions_with_fixed_fraction [3, 0, 4, 1, 2] c4df (by decide)

/-! ## Stable-sort machinery -/

theorem pairLe_true_iff (p q : ℕ × ℕ) :
    pairLe p q = true ↔ (p.1 < q.1 ∨ (p.1 = q.1 ∧ p.2 ≤ q.2)) := by
  simp [pairLe]

theorem pairLe_false_iff (p q : ℕ × ℕ) :
    pairLe p q = false ↔ (q.1 < p.1 ∨ (q.1 = p.1 ∧ q.2 < p.2)) := by
  rw [← Bool.not_eq_true, pairLe_true_iff]
  omega

theorem pairLe_exclusive (p q : ℕ × ℕ) (hne : p ≠ q) :
    (pairLe p q = true ∧ pairLe q p = false) ∨
    (pairLe p q = false ∧ pairLe q p = true) := by
  have hne' : ¬(p.1 = q.1 ∧ p.2 = q.2) := fun h => hne (Prod.ext_iff.mpr h)
  by_cases h : pairLe p q = true
  · left
    refine ⟨h, ?_⟩
    rw [pairLe_true_iff] at h
    rw [pairLe_false_iff]
    omega
  · right
    rw [Bool.not_eq_true] at h
    refine ⟨h, ?_⟩
    rw [pairLe_false_iff] at h
    rw [pairLe_true_iff]
    omega

theorem sInsertBy_comm (key : α → ℕ × ℕ) (a b : α) (hne : key a ≠ key b)
    (l : List α) :
    sInsertBy key a (sInsertBy key b l) = sInsertBy key b (sInsertBy key a l) := by
  induction l with
  | nil =>
    rcases pairLe_exclusive (key a) (key b) hne with ⟨h1, h2⟩ | ⟨h1, h2⟩ <;>
      simp [sInsertBy, h1, h2]
  | cons c t ih =>
    by_cases hac : pairLe (key a) (key c) = true <;>
      by_cases hbc : pairLe (key b) (key c) = true
    · rcases pairLe_exclusive (key a) (key b) hne with ⟨h1, h2⟩ | ⟨h1, h2⟩ <;>
        simp [sInsertBy, hac, hbc, h1, h2]
    · rw [Bool.not_eq_true] at hbc
      have h2 : pairLe (key b) (key a) = false := by
        rw [pairLe_true_iff] at hac
        rw [pairLe_false_iff] at hbc ⊢
        omega
      simp [sInsertBy, hac, hbc, h2]
    · rw [Bool.not_eq_true] at hac
      have h1 : pairLe (key a) (key b) = false := by
        rw [pairLe_true_iff] at hbc
        rw [pairLe_false_iff] at hac ⊢
        omega
      simp [sInsertBy, hac, hbc, h1]
    · rw [Bool.not_eq_true] at hac hbc
      simp [sInsertBy, hac, hbc, ih]

theorem sInsertBy_foldr_comm (key : α → ℕ × ℕ) (b : α) (u : List α)
    (s : List α) (h : ∀ x ∈ u, key x ≠ key b) :
    sInsertBy key b (u.foldr (sInsertBy key) s) =
      u.foldr (sInsertBy key) (sInsertBy key b s) := by
  induction u with
  | nil => rfl
  | cons x u ih =>
    have hbx : key b ≠ key x := fun e => h x (List.mem_cons_self x u) e.symm
    calc sInsertBy key b (sInsertBy key x (u.foldr (sInsertBy key) s))
        = sInsertBy key x (sInsertBy key b (u.foldr (sInsertBy key) s)) :=
          sInsertBy_comm key b x hbx _
      _ = sInsertBy key x (u.foldr (sInsertBy key) (sInsertBy key b s)) := by
          rw [ih (fun y hy => h y (List.mem_cons_of_mem x hy))]

theorem foldr_sInsertBy_comm (key : α → ℕ × ℕ) (u v : List α) (s : List α)
    (h : ∀ a ∈ u, ∀ b ∈ v, key a ≠ key b) :
    u.foldr (sInsertBy key) (v.foldr (sInsertBy key) s) =
      v.foldr (sInsertBy key) (u.foldr (sInsertBy key) s) := by
  induction u with
  | nil => rfl
  | cons x u ih =>
    calc sInsertBy key x (u.foldr (sInsertBy key) (v.foldr (sInsertBy key) s))
        = sInsertBy key x (v.foldr (sInsertBy key) (u.foldr (sInsertBy key) s)) := by
          rw [ih (fun a ha => h a (List.mem_cons_of_mem x ha))]
      _ = v.foldr (sInsertBy key) (sInsertBy key x (u.foldr (sInsertBy key) s)) :=
          sInsertBy_foldr_comm key x v _
            (fun b hb => Ne.symm (h x (List.mem_cons_self x u) b hb))

theorem sortBy_append (key : α → ℕ × ℕ) (u v : List α) :
    sortBy key (u ++ v) = u.foldr (sInsertBy key) (sortBy key v) := by
  simp [sortBy, List.foldr_append]

/-- Two blocks have no sort key in common. -/
abbrev crossNE (key : α → ℕ × ℕ) (u v : List α) : Prop :=
  ∀ a ∈ u, ∀ b ∈ v, key a ≠ key b

theorem sortBy_flatten_perm (key : α → ℕ × ℕ)
    {blocks blocks' : List (List α)} (hperm : blocks.Perm blocks') :
    blocks.Pairwise (crossNE key) →
      sortBy key blocks.flatten = sortBy key blocks'.flatten := by
  induction hperm with
  | nil => intro _; rfl
  | cons x h ih =>
    intro hp
    rw [List.flatten_cons, List.flatten_cons, sortBy_append, sortBy_append,
      ih (List.pairwise_cons.mp hp).2]
  | swap x y l =>
    intro hp
    have hxy : crossNE key y x := (List.pairwise_cons.mp hp).1 x (List.mem_cons_self x l)
    rw [List.flatten_cons, List.flatten_cons, List.flatten_cons, List.flatten_cons,
      sortBy_append, sortBy_append, sortBy_append, sortBy_append]
    exact foldr_sInsertBy_comm key y x _ hxy
  | trans h1 h2 ih1 ih2 =>
    intro hp
    have hsymm : ∀ {u v : List α}, crossNE key u v → crossNE key v u :=
      fun h a ha b hb => Ne.symm (h b hb a ha)
    exact (ih1 hp).trans (ih2 ((h1.pairwise_iff hsymm).mp hp))

/-! ## C6: determinism under the thread completion order -/

/-- C6: the merge-enrich-finalize stage is deterministic across re-runs. The
run-to-run nondeterminism in `final_data.py`'s main block is the order in
which `as_completed` yields the per-year merged tables before concatenation;
provided no two distinct per-year blocks share an (Origin, FlightDate) sort
key (distinct years have distinct flight dates), any two completion orders of
the same blocks produce identical TrainSet and TestSet tables. The seeded
shuffle `idx` is the same across runs because the seed is fixed and the total
row count is unchanged. -/
theorem pipeline_deterministic_under_completion_order (idx : List ℕ)
    (blocks blocks' : List (List MergedRow)) (hperm : blocks.Perm blocks')
    (hkeys : blocks.Pairwise (crossNE mergedKey)) :
    finalPipeline idx blocks' = finalPipeline idx blocks := by
  have hs : sortBy mergedKey blocks'.flatten = sortBy mergedKey blocks.flatten :=
    (sortBy_flatten_perm mergedKey hperm hkeys).symm
  unfold finalPipeline enrich add_rolling_averages
  rw [hs]

/-- Two one-row per-year blocks with distinct flight dates, for the C6 witness. -/
def c6blockA : List MergedRow :=
  [{ airline := 0
     origin := 1
     dest := 2
     flightDate := 10
     depDelayMinutes := some 5
     depDel15 := 0
     wval := fun _ _ => some 1 }]

/-- The second block of the C6 witness. -/
def c6blockB : List MergedRow :=
  [{ airline := 1
     origin := 1
     dest := 2
     flightDate := 400
     depDelayMinutes := some 20
     depDel15 := 1
     wval := fun _ _ => some 2 }]

/-- C6 witness: swapping the completion order of the two concrete per-year
blocks leaves the final train/test tables unchanged. -/
theorem pipeline_deterministic_witness :
    finalPipeline [0, 1] [c6blockB, c6blockA] =
      finalPipeline [0, 1] [c6blockA, c6blockB] :=
  pipeline_deterministic_under_completion_order [0, 1] [c6blockA, c6blockB]
    [c6blockB, c6blockA] (List.Perm.swap c6blockB c6blockA [])
    (by decide)

/-! ## Fill and rolling-window lemmas -/

theorem ffillAux_eq_self {l : List Val} (h : ∀ x ∈ l, x ≠ none) :
    ∀ c, ffillAux c l = l := by
  induction l with
  | nil => intro c; rfl
  | cons a t ih =>
    intro c
    cases a with
    | none => exact absurd rfl (h none (List.mem_cons_self _ _))
    | some x =>
      show some x :: ffillAux (some x) t = some x :: t
      rw [ih (fun y hy => h y (List.mem_cons_of_mem _ hy)) (some x)]

theorem bfill_eq_self {l : List Val} (h : ∀ x ∈ l, x ≠ none) : bfill l = l := by
  unfold bfill
  rw [ffillAux_eq_self (fun x hx => h x (List.mem_reverse.mp hx)) none,
    List.reverse_reverse]

theorem fillCol_eq_self {l : List Val} (h : ∀ x ∈ l, x ≠ none) : fillCol l = l := by
  unfold fillCol ffill
  rw [bfill_eq_self h, ffillAux_eq_self h none]

theorem length_ffillAux (l : List Val) : ∀ c, (ffillAux c l).length = l.length := by
  induction l with
  | nil => intro c; rfl
  | cons a t ih =>
    intro c
    cases a <;> simp [ffillAux, ih]

theorem length_fillCol (l : List Val) : (fillCol l).length = l.length := by
  simp [fillCol, ffill, bfill, length_ffillAux]

theorem getD_range_lt {i n : ℕ} (hi : i < n) (d : ℕ) :
    (List.range n).getD i d = i := by
  rw [List.getD_eq_getElem _ _ (by simpa using hi), List.getElem_range]

theorem length_rollCol {w : ℕ} {key : α → ℕ} {val : α → Val} [Inhabited α]
    {rows : List α} : (rollCol w key val rows).length = rows.length := by
  simp [rollCol]

theorem rollCol_getD {w : ℕ} {key : α → ℕ} {val : α → Val} [Inhabited α]
    {rows : List α} {i : ℕ} (hi : i < rows.length) :
    (rollCol w key val rows).getD i none = rollEntry w key val rows i := by
  unfold rollCol
  rw [getD_map_lt _ 0 none (by simpa using hi), getD_range_lt hi]

theorem groupPrefixVals_eq {key : α → ℕ} {val : α → Val} [Inhabited α]
    {rows : List α} {i : ℕ} (hi : i < rows.length) :
    groupPrefixVals key val rows i =
      ((rows.take i).filter (fun r => key r == key (rows.getD i default))).map val
        ++ [val (rows.getD i default)] := by
  unfold groupPrefixVals
  rw [List.take_succ, List.getElem?_eq_getElem hi]
  rw [List.filter_append, List.map_append]
  congr 1
  have hd : rows.getD i default = rows[i] := List.getD_eq_getElem rows default hi
  simp [← hd]

theorem mem_lastN_append_singleton {w : ℕ} (hw : 1 ≤ w) (u : List β) (a : β) :
    a ∈ lastN w (u ++ [a]) := by
  unfold lastN
  rw [List.length_append]
  have hk : u.length + 1 - w ≤ u.length := by omega
  rw [List.drop_append_of_le_length (by simpa using hk)]
  exact List.mem_append_right _ (List.mem_singleton.mpr rfl)

theorem rollEntry_ne_none {w : ℕ} {key : α → ℕ} {val : α → Val} [Inhabited α]
    {rows : List α} {i : ℕ} (hw : 1 ≤ w) (hi : i < rows.length)
    (hv : val (rows.getD i default) ≠ none) :
    rollEntry w key val rows i ≠ none := by
  obtain ⟨x, hx⟩ := Option.ne_none_iff_exists'.mp hv
  have hmem : val (rows.getD i default) ∈ lastN w (groupPrefixVals key val rows i) := by
    rw [groupPrefixVals_eq hi]
    exact mem_lastN_append_singleton hw _ _
  have hxmem : x ∈ (lastN w (groupPrefixVals key val rows i)).filterMap id :=
    List.mem_filterMap.mpr ⟨some x, hx ▸ hmem, rfl⟩
  have h0 : ((lastN w (groupPrefixVals key val rows i)).filterMap id).isEmpty = false := by
    rw [List.isEmpty_eq_false_iff_exists_mem]
    exact ⟨x, hxmem⟩
  unfold rollEntry
  rw [h0]
  simp

theorem rollCol_ne_none {w : ℕ} {key : α → ℕ} {val : α → Val} [Inhabited α]
    {rows : List α} (hw : 1 ≤ w) (h : ∀ r ∈ rows, val r ≠ none) :
    ∀ x ∈ rollCol w key val rows, x ≠ none := by
  intro x hx
  rcases List.mem_map.mp hx with ⟨i, hi, rfl⟩
  have hi' : i < rows.length := List.mem_range.mp hi
  apply rollEntry_ne_none hw hi'
  apply h
  rw [List.getD_eq_getElem _ _ hi']
  exact List.getElem_mem hi'

theorem winLen_pos (w : Win) : 1 ≤ winLen w := by cases w <;> simp [winLen]

theorem rollEntry_map [Inhabited α] [Inhabited β] (f : β → α) {l : List β}
    (w : ℕ) (key : α → ℕ) (val : α → Val) {i : ℕ} (hi : i < l.length) :
    rollEntry w key val (l.map f) i =
      rollEntry w (fun b => key (f b)) (fun b => val (f b)) l i := by
  have hgp : groupPrefixVals key val (l.map f) i =
      groupPrefixVals (fun b => key (f b)) (fun b => val (f b)) l i := by
    unfold groupPrefixVals
    rw [getD_map_lt f default default hi, ← List.map_take, List.filter_map,
      List.map_map]
    rfl
  unfold rollEntry
  rw [hgp]

/-! ## Sortedness lemmas -/

theorem sInsertBy_perm (key : α → ℕ × ℕ) (a : α) (l : List α) :
    (sInsertBy key a l).Perm (a :: l) := by
  induction l with
  | nil => exact List.Perm.refl _
  | cons b t ih =>
    unfold sInsertBy
    by_cases h : pairLe (key a) (key b) = true
    · rw [if_pos h]
    · rw [if_neg h]
      exact (ih.cons b).trans (List.Perm.swap a b t)

theorem sortBy_perm (key : α → ℕ × ℕ) (l : List α) : (sortBy key l).Perm l := by
  induction l with
  | nil => exact List.Perm.refl _
  | cons a t ih =>
    exact (sInsertBy_perm key a (sortBy key t)).trans (ih.cons a)

theorem pairLe_of_false {p q : ℕ × ℕ} (h : pairLe p q = false) :
    pairLe q p = true := by
  rw [pairLe_false_iff] at h
  rw [pairLe_true_iff]
  omega

theorem chain'_sInsertBy (key : α → ℕ × ℕ) (a : α) {l : List α}
    (h : List.Chain' (fun x y => pairLe (key x) (key y) = true) l) :
    List.Chain' (fun x y => pairLe (key x) (key y) = true) (sInsertBy key a l) := by
  induction l with
  | nil => simp [sInsertBy]
  | cons b t ih =>
    unfold sInsertBy
    by_cases hab : pairLe (key a) (key b) = true
    · rw [if_pos hab]
      exact List.chain'_cons.mpr ⟨hab, h⟩
    · rw [if_neg hab]
      rw [Bool.not_eq_true] at hab
      have hba : pairLe (key b) (key a) = true := pairLe_of_false hab
      have ih' := ih h.tail
      rw [List.chain'_cons']
      refine ⟨?_, ih'⟩
      intro y hy
      cases t with
      | nil =>
        simp [sInsertBy] at hy
        subst hy
        exact hba
      | cons c t' =>
        by_cases hac : pairLe (key a) (key c) = true
        · simp [sInsertBy, hac] at hy
          subst hy
          exact hba
        · simp [sInsertBy, hac] at hy
          subst hy
          exact (List.chain'_cons.mp h).1

theorem chain'_sortBy (key : α → ℕ × ℕ) (l : List α) :
    List.Chain' (fun x y => pairLe (key x) (key y) = true) (sortBy key l) := by
  induction l with
  | nil => simp [sortBy]
  | cons a t ih => exact chain'_sInsertBy key a ih

theorem sortBy_eq_self (key : α → ℕ × ℕ) {l : List α}
    (h : List.Chain' (fun x y => pairLe (key x) (key y) = true) l) :
    sortBy key l = l := by
  induction l with
  | nil => rfl
  | cons a t ih =>
    show sInsertBy key a (sortBy key t) = a :: t
    rw [ih h.tail]
    cases t with
    | nil => rfl
    | cons b t' =>
      unfold sInsertBy
      rw [if_pos (List.chain'_cons.mp h).1]

/-! ## Composition of the two rolling passes on null-free tables -/

/-- No nullable merged column of `rows` holds a null. -/
abbrev baseNoNulls (rows : List MergedRow) : Prop :=
  ∀ r ∈ rows, r.depDelayMinutes ≠ none ∧ ∀ s v, r.wval s v ≠ none

theorem fillBaseCols_eq_self {rows : List MergedRow} (h : baseNoNulls rows) :
    fillBaseCols rows = rows := by
  unfold fillBaseCols
  apply rebuild_map_range default
  intro i hi
  have hdelay : fillCol (rows.map (·.depDelayMinutes)) = rows.map (·.depDelayMinutes) :=
    fillCol_eq_self (fun x hx => by
      rcases List.mem_map.mp hx with ⟨r, hr, rfl⟩
      exact (h r hr).1)
  have hw : ∀ s v, fillCol (rows.map (fun r => r.wval s v)) =
      rows.map (fun r => r.wval s v) := fun s v =>
    fillCol_eq_self (fun x hx => by
      rcases List.mem_map.mp hx with ⟨r, hr, rfl⟩
      exact (h r hr).2 s v)
  have h1 : (rows.map (·.depDelayMinutes)).getD i none =
      (rows.getD i default).depDelayMinutes := getD_map_lt _ default none hi
  have h2 : ∀ s v, (rows.map (fun r => r.wval s v)).getD i none =
      (rows.getD i default).wval s v := fun s v => getD_map_lt _ default none hi
  simp only [hdelay, hw, h1, h2]

theorem length_addRollingSorted {s : List MergedRow} :
    (addRollingSorted s).length = s.length := by
  simp [addRollingSorted]

theorem addRollingSorted_getD {s : List MergedRow} {i : ℕ} (hi : i < s.length) :
    (addRollingSorted s).getD i default =
      { base := (fillBaseCols s).getD i default
        wfeat := fun c => (wfeatCol s c).getD i none } := by
  unfold addRollingSorted
  rw [getD_map_lt _ 0 default (by simpa using hi), getD_range_lt hi]

theorem map_base_addRollingSorted {s : List MergedRow} (h : baseNoNulls s) :
    (addRollingSorted s).map (·.base) = s := by
  unfold addRollingSorted
  rw [List.map_map]
  apply rebuild_map_range default
  intro i hi
  show (fillBaseCols s).getD i default = s.getD i default
  rw [fillBaseCols_eq_self h]

theorem wfeatCol_eq_rollCol {s : List MergedRow} (h : baseNoNulls s) (c : WCol) :
    wfeatCol s c =
      rollCol (winLen c.1) (sideKey c.2.1) (fun r => r.wval c.2.1 c.2.2) s :=
  fillCol_eq_self (rollCol_ne_none (winLen_pos c.1)
    (fun r hr => (h r hr).2 c.2.1 c.2.2))

theorem map_wfeat_addRollingSorted {s : List MergedRow} (c : WCol) :
    (addRollingSorted s).map (·.wfeat c) = wfeatCol s c := by
  unfold addRollingSorted
  rw [List.map_map]
  have hl : (wfeatCol s c).length = s.length := by
    simp [wfeatCol, length_fillCol, length_rollCol]
  rw [show s.length = (wfeatCol s c).length from hl.symm]
  apply rebuild_map_range none
  intro i hi
  rfl

theorem length_addGenericSorted {s : List Stage1} :
    (addGenericSorted s).length = s.length := by
  simp [addGenericSorted]

theorem addGenericSorted_getD {s : List Stage1} {i : ℕ} (hi : i < s.length) :
    (addGenericSorted s).getD i default =
      { base := ((fillStage1Cols s).getD i default).base
        wfeat := ((fillStage1Cols s).getD i default).wfeat
        dfeat := fun w => (dfeatCol s w).getD i none } := by
  unfold addGenericSorted
  rw [getD_map_lt _ 0 default (by simpa using hi), getD_range_lt hi]

theorem fillStage1Cols_eq_self {rows : List Stage1}
    (hb : baseNoNulls (rows.map (·.base)))
    (hw : ∀ c : WCol, ∀ x ∈ rows.map (·.wfeat c), x ≠ none) :
    fillStage1Cols rows = rows := by
  unfold fillStage1Cols
  apply rebuild_map_range default
  intro i hi
  have h1 : fillBaseCols (rows.map (·.base)) = rows.map (·.base) :=
    fillBaseCols_eq_self hb
  have h2 : ∀ c : WCol, fillCol (rows.map (·.wfeat c)) = rows.map (·.wfeat c) :=
    fun c => fillCol_eq_self (hw c)
  have h3 : (rows.map (·.base)).getD i default = (rows.getD i default).base :=
    getD_map_lt _ default default hi
  have h4 : ∀ c : WCol, (rows.map (·.wfeat c)).getD i none =
      (rows.getD i default).wfeat c := fun c => getD_map_lt _ default none hi
  simp only [h1, h2, h3, h4]

/-! ## C1 amended: what the rolling features actually are -/

/-- C1 corrected: on a null-free merged table, the rolling feature columns of
the enriched output are exactly what `rollEntry` describes over the
(Origin, FlightDate)-sorted frame: for row `i`, each weather feature is the
mean of the last at most 7 (weekly) or 30 (monthly) values of the
corresponding weather column among rows 0..i of the sorted frame that share
row `i`'s group key (Origin for `Origin_`-prefixed columns, Dest for
`Dest_`-prefixed ones), and each delay feature is the same trailing mean of
`DepDelayMinutes` over the Origin group. The window counts rows (not calendar
days), includes row `i`'s own same-day value, performs no per-(station, day)
aggregation and no one-day shift, so day D's feature depends on day D's own
reading. -/
theorem rolling_features_amended (df : List MergedRow) (hnn : baseNoNulls df)
    (i : ℕ) (hi : i < df.length) :
    (∀ c : WCol, ((enrich df).getD i default).wfeat c =
      rollEntry (winLen c.1) (sideKey c.2.1) (fun r => r.wval c.2.1 c.2.2)
        (sortBy mergedKey df) i) ∧
    (∀ w : Win, ((enrich df).getD i default).dfeat w =
      rollEntry (winLen w) MergedRow.origin MergedRow.depDelayMinutes
        (sortBy mergedKey df) i) := by
  have hperm := sortBy_perm mergedKey df
  have hlen_s : (sortBy mergedKey df).length = df.length := hperm.length_eq
  set s := sortBy mergedKey df with hs
  have hnn_s : baseNoNulls s := fun r hr => hnn r (hperm.mem_iff.mp hr)
  have hi_s : i < s.length := by rwa [hlen_s]
  have hfill : fillBaseCols s = s := fillBaseCols_eq_self hnn_s
  have hmapbase : (addRollingSorted s).map (·.base) = s := map_base_addRollingSorted hnn_s
  have hchain_s : List.Chain' (fun x y => pairLe (mergedKey x) (mergedKey y) = true) s :=
    chain'_sortBy mergedKey df
  have hchain1 : List.Chain'
      (fun x y => pairLe (mergedKey x.base) (mergedKey y.base) = true)
      (addRollingSorted s) := by
    have h' := hchain_s
    rw [← hmapbase] at h'
    exact (List.chain'_map _).mp h'
  have hsort1 : sortBy (fun r => mergedKey r.base) (addRollingSorted s) =
      addRollingSorted s := sortBy_eq_self _ hchain1
  have henrich : enrich df = addGenericSorted (addRollingSorted s) := by
    unfold enrich add_rolling_averages add_generic_rolling_averages
    rw [← hs, hsort1]
  have hlen1 : (addRollingSorted s).length = s.length := length_addRollingSorted
  have hi1 : i < (addRollingSorted s).length := by rwa [hlen1]
  have hwcol : ∀ c : WCol, ∀ x ∈ (addRollingSorted s).map (·.wfeat c), x ≠ none := by
    intro c
    rw [map_wfeat_addRollingSorted c, wfeatCol_eq_rollCol hnn_s c]
    exact rollCol_ne_none (winLen_pos c.1) (fun r hr => (hnn_s r hr).2 c.2.1 c.2.2)
  have hbase1 : baseNoNulls ((addRollingSorted s).map (·.base)) := by
    rwa [hmapbase]
  have hfill1 : fillStage1Cols (addRollingSorted s) = addRollingSorted s :=
    fillStage1Cols_eq_self hbase1 hwcol
  have hdelay1 : ∀ r ∈ addRollingSorted s, r.base.depDelayMinutes ≠ none := by
    intro r hr
    have : r.base ∈ (addRollingSorted s).map (·.base) := List.mem_map_of_mem _ hr
    rw [hmapbase] at this
    exact (hnn_s r.base this).1
  have hdcol : ∀ w : Win, dfeatCol (addRollingSorted s) w =
      rollCol (winLen w) (fun r => r.base.origin)
        (fun r => r.base.depDelayMinutes) (addRollingSorted s) := fun w =>
    fillCol_eq_self (rollCol_ne_none (winLen_pos w) hdelay1)
  have hrow : (enrich df).getD i default =
      { base := ((addRollingSorted s).getD i default).base
        wfeat := ((addRollingSorted s).getD i default).wfeat
        dfeat := fun w => (dfeatCol (addRollingSorted s) w).getD i none } := by
    rw [henrich, addGenericSorted_getD hi1, hfill1]
  constructor
  · intro c
    rw [hrow]
    show ((addRollingSorted s).getD i default).wfeat c = _
    rw [addRollingSorted_getD hi_s]
    show (wfeatCol s c).getD i none = _
    rw [wfeatCol_eq_rollCol hnn_s c, rollCol_getD hi_s]
  · intro w
    rw [hrow]
    show (dfeatCol (addRollingSorted s) w).getD i none = _
    rw [hdcol w, rollCol_getD hi1]
    have hmap := rollEntry_map (fun r : Stage1 => r.base) (winLen w)
      MergedRow.origin MergedRow.depDelayMinutes (l := addRollingSorted s) hi1
    rw [hmapbase] at hmap
    exact hmap.symm

/-- C1 amended witness: the characterization applied to the two-row table of
the counterexample's first input at its day-11 row. -/
theorem rolling_features_amended_witness :
    (∀ c : WCol, ((enrich c1dfA).getD 1 default).wfeat c =
      rollEntry (winLen c.1) (sideKey c.2.1) (fun r => r.wval c.2.1 c.2.2)
        (sortBy mergedKey c1dfA) 1) ∧
    (∀ w : Win, ((enrich c1dfA).getD 1 default).dfeat w =
      rollEntry (winLen w) MergedRow.origin MergedRow.depDelayMinutes
        (sortBy mergedKey c1dfA) 1) :=
  rolling_features_amended c1dfA (by decide) 1 (by decide)

/-! ## Constant tables: the two rolling passes send equal rows to equal rows -/

theorem pairLe_refl (p : ℕ × ℕ) : pairLe p p = true := by
  rw [pairLe_true_iff]
  omega

theorem chain'_replicate_of_rel {R : α → α → Prop} {a : α} (h : R a a) :
    ∀ n, List.Chain' R (List.replicate n a)
  | 0 => List.chain'_nil
  | 1 => List.chain'_singleton a
  | n + 2 => List.chain'_cons.mpr ⟨h, chain'_replicate_of_rel h (n + 1)⟩

theorem getD_replicate_lt {n i : ℕ} {a d : α} (hi : i < n) :
    (List.replicate n a).getD i d = a := by
  rw [List.getD_eq_getElem _ _ (by simpa using hi), List.getElem_replicate]

theorem ffillAux_replicate_none : ∀ (n : ℕ) (c : Val),
    ffillAux c (List.replicate n none) = List.replicate n c
  | 0, c => rfl
  | n + 1, c => by
    show c :: ffillAux c (List.replicate n none) = c :: List.replicate n c
    rw [ffillAux_replicate_none n c]

theorem fillCol_replicate (n : ℕ) (v : Val) :
    fillCol (List.replicate n v) = List.replicate n v := by
  cases v with
  | none =>
    unfold fillCol ffill bfill
    rw [List.reverse_replicate, ffillAux_replicate_none, List.reverse_replicate,
      ffillAux_replicate_none]
  | some x =>
    exact fillCol_eq_self (fun y hy => by
      rw [List.eq_of_mem_replicate hy]
      simp)

theorem filter_replicate_of_pos {p : α → Bool} {a : α} (h : p a = true) :
    ∀ n, (List.replicate n a).filter p = List.replicate n a
  | 0 => rfl
  | n + 1 => by
    rw [List.replicate_succ, List.filter_cons, if_pos h,
      filter_replicate_of_pos h n]

theorem filterMap_id_replicate_none :
    ∀ n : ℕ, (List.replicate n (none : Val)).filterMap id = []
  | 0 => rfl
  | n + 1 => by
    rw [List.replicate_succ, List.filterMap_cons]
    exact filterMap_id_replicate_none n

theorem filterMap_id_replicate_some (x : ℚ) :
    ∀ n : ℕ, (List.replicate n (some x)).filterMap id = List.replicate n x
  | 0 => rfl
  | n + 1 => by
    rw [List.replicate_succ, List.filterMap_cons, List.replicate_succ]
    show x :: (List.replicate n (some x)).filterMap id = x :: List.replicate n x
    rw [filterMap_id_replicate_some x n]

theorem rollEntry_replicate {w : ℕ} {key : α → ℕ} {val : α → Val} [Inhabited α]
    {r0 : α} {n i : ℕ} (hw : 1 ≤ w) (hi : i < n) :
    rollEntry w key val (List.replicate n r0) i = val r0 := by
  have hgp : groupPrefixVals key val (List.replicate n r0) i =
      List.replicate (i + 1) (val r0) := by
    unfold groupPrefixVals
    rw [List.take_replicate, Nat.min_eq_left (by omega), getD_replicate_lt hi,
      filter_replicate_of_pos (by simp) (i + 1), List.map_replicate]
  have hlast : lastN w (List.replicate (i + 1) (val r0)) =
      List.replicate (i + 1 - (i + 1 - w)) (val r0) := by
    unfold lastN
    rw [List.length_replicate, List.drop_replicate]
  have hk : 1 ≤ i + 1 - (i + 1 - w) := by omega
  unfold rollEntry
  rw [hgp, hlast]
  cases hv : val r0 with
  | none =>
    rw [filterMap_id_replicate_none]
    rfl
  | some x =>
    rw [filterMap_id_replicate_some]
    have hne : (List.replicate (i + 1 - (i + 1 - w)) x).isEmpty = false := by
      rw [List.isEmpty_eq_false_iff_exists_mem]
      exact ⟨x, List.mem_replicate.mpr ⟨by omega, rfl⟩⟩
    rw [hne]
    simp only [Bool.false_eq_true, if_false, List.sum_replicate, List.length_replicate]
    have hq : ((i + 1 - (i + 1 - w) : ℕ) : ℚ) ≠ 0 := by
      have hp : i + 1 - (i + 1 - w) ≠ 0 := by omega
      exact_mod_cast hp
    rw [nsmul_eq_mul, mul_div_cancel_left₀ x hq]

theorem map_range_const {n : ℕ} {F : ℕ → α} {a : α} (h : ∀ i, i < n → F i = a) :
    (List.range n).map F = List.replicate n a := by
  have h1 : (List.range n).map F = (List.range n).map (fun _ => a) :=
    List.map_congr_left (fun i hi => h i (List.mem_range.mp hi))
  rw [h1, List.map_const', List.length_range]

theorem fillBaseCols_replicate (n : ℕ) (r0 : MergedRow) :
    fillBaseCols (List.replicate n r0) = List.replicate n r0 := by
  unfold fillBaseCols
  rw [List.length_replicate]
  apply map_range_const
  intro i hi
  have h1 : (fillCol ((List.replicate n r0).map (·.depDelayMinutes))).getD i none =
      r0.depDelayMinutes := by
    rw [List.map_replicate, fillCol_replicate, getD_replicate_lt hi]
  have h2 : ∀ s v, (fillCol ((List.replicate n r0).map (fun r => r.wval s v))).getD i none =
      r0.wval s v := by
    intro s v
    rw [List.map_replicate, fillCol_replicate, getD_replicate_lt hi]
  simp only [h1, h2, getD_replicate_lt hi]

/-- The stage-1 image of one row of a constant table. -/
def stage1Const (r0 : MergedRow) : Stage1 :=
  { base := r0, wfeat := fun c => r0.wval c.2.1 c.2.2 }

/-- The enriched image of one row of a constant table. -/
def stage2Const (r0 : MergedRow) : Stage2 :=
  { base := r0, wfeat := fun c => r0.wval c.2.1 c.2.2, dfeat := fun _ => r0.depDelayMinutes }

theorem rollCol_replicate {w : ℕ} {key : α → ℕ} {val : α → Val} [Inhabited α]
    (hw : 1 ≤ w) (n : ℕ) (r0 : α) :
    rollCol w key val (List.replicate n r0) = List.replicate n (val r0) := by
  unfold rollCol
  rw [List.length_replicate]
  exact map_range_const (fun i hi => rollEntry_replicate hw hi)

theorem wfeatCol_replicate (n : ℕ) (r0 : MergedRow) (c : WCol) :
    wfeatCol (List.replicate n r0) c = List.replicate n (r0.wval c.2.1 c.2.2) := by
  unfold wfeatCol
  rw [rollCol_replicate (winLen_pos c.1), fillCol_replicate]

theorem addRollingSorted_replicate (n : ℕ) (r0 : MergedRow) :
    addRollingSorted (List.replicate n r0) = List.replicate n (stage1Const r0) := by
  unfold addRollingSorted
  rw [List.length_replicate]
  apply map_range_const
  intro i hi
  have h1 : (fillBaseCols (List.replicate n r0)).getD i default = r0 := by
    rw [fillBaseCols_replicate, getD_replicate_lt hi]
  have h2 : ∀ c : WCol, (wfeatCol (List.replicate n r0) c).getD i none =
      r0.wval c.2.1 c.2.2 := fun c => by
    rw [wfeatCol_replicate, getD_replicate_lt hi]
  simp only [h1, h2]
  rfl

theorem fillStage1Cols_replicate (n : ℕ) (x : Stage1) :
    fillStage1Cols (List.replicate n x) = List.replicate n x := by
  unfold fillStage1Cols
  rw [List.length_replicate]
  apply map_range_const
  intro i hi
  have h1 : (fillBaseCols ((List.replicate n x).map (·.base))).getD i default = x.base := by
    rw [List.map_replicate, fillBaseCols_replicate, getD_replicate_lt hi]
  have h2 : ∀ c : WCol, (fillCol ((List.replicate n x).map (·.wfeat c))).getD i none =
      x.wfeat c := fun c => by
    rw [List.map_replicate, fillCol_replicate, getD_replicate_lt hi]
  simp only [h1, h2]

theorem dfeatCol_replicate (n : ℕ) (x : Stage1) (w : Win) :
    dfeatCol (List.replicate n x) w = List.replicate n x.base.depDelayMinutes := by
  unfold dfeatCol
  rw [rollCol_replicate (winLen_pos w), fillCol_replicate]

theorem addGenericSorted_replicate (n : ℕ) (x : Stage1) :
    addGenericSorted (List.replicate n x) =
      List.replicate n
        { base := x.base, wfeat := x.wfeat, dfeat := fun _ => x.base.depDelayMinutes } := by
  unfold addGenericSorted
  rw [List.length_replicate]
  apply map_range_const
  intro i hi
  have h1 : (fillStage1Cols (List.replicate n x)).getD i default = x := by
    rw [fillStage1Cols_replicate, getD_replicate_lt hi]
  have h2 : ∀ w : Win, (dfeatCol (List.replicate n x) w).getD i none =
      x.base.depDelayMinutes := fun w => by
    rw [dfeatCol_replicate, getD_replicate_lt hi]
  simp only [h1, h2]

theorem sortBy_replicate (key : α → ℕ × ℕ) (n : ℕ) (a : α) :
    sortBy key (List.replicate n a) = List.replicate n a :=
  sortBy_eq_self key
    (chain'_replicate_of_rel (R := fun x y => pairLe (key x) (key y) = true)
      (pairLe_refl (key a)) n)

theorem enrich_replicate (n : ℕ) (r0 : MergedRow) :
    enrich (List.replicate n r0) = List.replicate n (stage2Const r0) := by
  unfold enrich add_rolling_averages add_generic_rolling_averages
  rw [sortBy_replicate, addRollingSorted_replicate, sortBy_replicate,
    addGenericSorted_replicate]
  rfl

/-- C2 corrected: the pipeline computes no cumulative same-day sequence count.
The enrichment stage adds only the rolling-mean columns, and on any table
whose rows are all identical — rows that in particular share their
(Origin, FlightDate) key — every two rows of the enriched output are equal, so
no column of the enriched table can store the zero-based same-key rank, which
would have to differ between the first and any later flight of the group. -/
theorem enrich_no_sequence_counter_amended (df : List MergedRow) (r0 : MergedRow)
    (hconst : ∀ r ∈ df, r = r0) (i j : ℕ) (hi : i < df.length) (hj : j < df.length) :
    (enrich df).getD i default = (enrich df).getD j default := by
  have hdf : df = List.replicate df.length r0 := List.eq_replicate_of_mem hconst
  rw [hdf, enrich_replicate, getD_replicate_lt hi, getD_replicate_lt hj]

/-- C2 amended witness: three identical rows enrich to three identical rows. -/
theorem enrich_no_sequence_counter_amended_witness :
    (enrich [c2row, c2row, c2row]).getD 0 default =
      (enrich [c2row, c2row, c2row]).getD 2 default :=
  enrich_no_sequence_counter_amended [c2row, c2row, c2row] c2row
    (by decide) 0 2 (by decide) (by decide)

end FinalData
